import Mathlib

/-!
Shallow embedding of the parse → validate → aggregate pipeline of
`control/aggregate_results.py` (functions `validate_fio_data`,
`parse_results_sheet`, `aggregate_results`).

Modelling conventions:
* Numeric values parsed from the transcripts are modelled as exact
  rationals (`ℚ`).  The Python `statistics.mean`/`statistics.stdev`
  functions compute the mean and the sample variance exactly over
  rationals before a final deterministic conversion, so equalities of
  these statistics are faithfully represented by equalities in `ℚ`.
  The final square root applied by `stdev` is kept abstract as a
  parameter `sq : ℚ → ℚ`: it is a deterministic function of the exact
  sample variance, which is what every claim about `stdev` compares.
* Text is modelled as `List Char`.  Python's `in` substring test is
  `containsSub`, `str.split()` is `words`, and the `re.search` call for
  the pgbench block is modelled by the executable matcher `matchOltp`
  together with the declarative matchability predicate `OrderedMatch`
  (the regex written out as an existential decomposition; the two are
  proved equivalent below).
* A fio data row is a `Row`: one match of the five-field fio pattern
  (sequence number, free-text label, rate, throughput, latency); a
  `Transcript` carries its fio rows and the raw text used for the
  pgbench extraction.
* Python exceptions escaping `parse_results_sheet`'s loop (e.g. the
  `IndexError` from `test_name.split()[0]` on a wordless label, or a
  `ValueError` from `float` on a malformed numeric token) make the
  whole file parse return `None`; this is modelled by `Option`, with
  `none` at the outer level standing for the exception.
-/

/-- Characters matched by the regex class `[\d.]` of the numeric groups. -/
def numch (c : Char) : Bool := c.isDigit || c == '.'

/-- Boolean test that `p` is an initial segment of `s` (used to model
substring search). -/
def leadsWith : List Char → List Char → Bool
  | [], _ => true
  | _ :: _, [] => false
  | p :: ps, c :: cs => p == c && leadsWith ps cs

/-- Python's `pat in s` substring test on text. -/
def containsSub (p : List Char) : List Char → Bool
  | [] => leadsWith p []
  | c :: cs => leadsWith p (c :: cs) || containsSub p cs

/-- Helper for `words`: accumulates the current word (reversed). -/
def wordsAux : List Char → List Char → List (List Char)
  | [], cur => if cur = [] then [] else [cur.reverse]
  | c :: cs, cur =>
    if c.isWhitespace then
      if cur = [] then wordsAux cs [] else cur.reverse :: wordsAux cs []
    else wordsAux cs (c :: cur)

/-- Python's `str.split()` with no argument: split on whitespace runs,
dropping empty pieces. -/
def words (s : List Char) : List (List Char) := wordsAux s []

/-- Association-list lookup, modelling a Python `dict` read. -/
def lookupKV {α : Type} (k : List Char) : List (List Char × α) → Option α
  | [] => none
  | (k', v) :: rest => if k' = k then some v else lookupKV k rest

/-- Association-list store, modelling a Python `dict` assignment:
replaces the value in place when the key exists, appends otherwise. -/
def insertKV {α : Type} (k : List Char) (v : α) :
    List (List Char × α) → List (List Char × α)
  | [] => [(k, v)]
  | (k', v') :: rest =>
    if k' = k then (k', v) :: rest else (k', v') :: insertKV k v rest

/-- The `write_exceptions` list of `validate_fio_data`. -/
def writeExceptions : List (List Char) :=
  ["Write".toList, "RW (Write)".toList]

/-- The test `any(exc in test_name for exc in write_exceptions)`. -/
def writeExc (name : List Char) : Bool :=
  writeExceptions.any (fun e => containsSub e name)

/-- The quantity `expected_bandwidth = iops * 4` (the fixed 4 KiB block size). -/
def expectedBw (iops : ℚ) : ℚ := iops * 4

/-- The lower edge of the plausibility window: `0.8 × expected`, relaxed
to `0.5 ×` for write-classified labels. -/
def minAllowed (name : List Char) (iops : ℚ) : ℚ :=
  if writeExc name then expectedBw iops * 0.5 else expectedBw iops * 0.8

/-- The upper edge of the plausibility window: `1.2 × expected`. -/
def maxAllowed (iops : ℚ) : ℚ := expectedBw iops * 1.2

/-- The anomaly-filter condition of `validate_fio_data` (lines 16-29 of
the source): high-water marks on rate and throughput plus the
rate/throughput ratio window, with the relaxed floor for
write-classified labels. -/
def anomalous (name : List Char) (iops bw : ℚ) : Bool :=
  decide (iops > 100000 ∨ bw > 10000 ∨
    (bw > 0 ∧ iops > 0 ∧ ¬ (minAllowed name iops ≤ bw ∧ bw ≤ maxAllowed iops)))

/-- The `max_allowed_latency` table of `validate_fio_data`. -/
def latTable : List (List Char × ℚ) :=
  [("Sequential Read".toList, 50), ("Sequential Write".toList, 100),
   ("Random Read".toList, 100), ("Random Write".toList, 200),
   ("Mixed RW".toList, 200)]

/-- The combined-workload marker `"Mixed RW"`. -/
def mixedLbl : List Char := "Mixed RW".toList

/-- The class `test_type = "Mixed RW" if "Mixed RW" in test_name else
test_name.split()[0]`; `none` models the `IndexError` raised by `[0]`
when the label has no words. -/
def testType (name : List Char) : Option (List Char) :=
  if containsSub mixedLbl name then some mixedLbl else (words name).head?

/-- The ceiling `max_allowed_latency.get(test_type, 300)`, with `none`
propagating the `IndexError` of `testType`. -/
def maxLatencyOf (name : List Char) : Option ℚ :=
  (testType name).map (fun tt => (lookupKV tt latTable).getD 300)

/-- The verdict `validate_fio_data(test_name, iops, bandwidth, latency)`:
here `some true`/`some false` are the accept/reject verdicts and `none`
is an escaped exception. -/
def validate_fio_data (name : List Char) (iops bw latency : ℚ) :
    Option Bool :=
  if anomalous name iops bw then some false
  else
    match maxLatencyOf name with
    | none => none
    | some m => some (if latency > m then false else true)

/-- The `unique_key` computation of `parse_results_sheet` (lines 72-79):
the TestKey assigned to a validated measurement. -/
def uniqueKey (name : List Char) : List Char :=
  if containsSub mixedLbl name then
    if containsSub ("Read".toList) name || containsSub ("Чтение".toList) name then
      "Mixed RW (Read)".toList
    else if containsSub ("Write".toList) name || containsSub ("Запись".toList) name then
      "Mixed RW (Write)".toList
    else name
  else name

/-- The numeric payload stored per TestKey by `parse_results_sheet`. -/
structure FioVals where
  IOPS : ℚ
  Bandwidth : ℚ
  Latency : ℚ
deriving DecidableEq

/-- One match of the fio row pattern
`(\d+)\s+(.+?)\s+([\d.]+)\s+([\d.]+)\s+([\d.]+)`: sequence number,
trimmed label, rate, throughput, latency. -/
structure Row where
  num : ℕ
  name : List Char
  iops : ℚ
  bw : ℚ
  lat : ℚ
deriving DecidableEq

/-- The fio loop of `parse_results_sheet` (lines 63-85): validate each
row and store the accepted ones in the `results['fio']` dict under
their `unique_key`; an exception (`none` verdict) aborts the whole
parse. -/
def parseFioAux : List Row → List (List Char × FioVals) →
    Option (List (List Char × FioVals))
  | [], acc => some acc
  | r :: rs, acc =>
    match validate_fio_data r.name r.iops r.bw r.lat with
    | none => none
    | some true =>
      parseFioAux rs (insertKV (uniqueKey r.name) ⟨r.iops, r.bw, r.lat⟩ acc)
    | some false => parseFioAux rs acc

/-- The `results['fio']` mapping produced for one transcript. -/
def parseFio (rows : List Row) : Option (List (List Char × FioVals)) :=
  parseFioAux rows []

/-- The record `results['pgbench']` when present: the OLTP summary
measurement. -/
structure Oltp where
  TPS : ℚ
  Latency_Avg : ℚ
  Transactions : ℕ
deriving DecidableEq

/-- The literal label preceding the first pgbench group. -/
def tpsLbl : List Char := "TPS (Transactions Per Second):".toList

/-- The literal label preceding the second pgbench group. -/
def latLbl : List Char := "Средняя задержка:".toList

/-- The literal label preceding the third pgbench group. -/
def txLbl : List Char := "Обработано транзакций:".toList

/-- One stage of the pgbench regex: scan for an occurrence of `pat`
followed (after `\s*`) by a nonempty token of `ok`-characters; on
success return the greedy token and the remainder after it, otherwise
keep scanning (the backtracking of `re.search` over start positions). -/
def findTok (pat : List Char) (ok : Char → Bool) : List Char →
    Option (List Char × List Char)
  | [] => none
  | c :: cs =>
    if leadsWith pat (c :: cs) then
      if (((c :: cs).drop pat.length).dropWhile (fun d => d.isWhitespace)).takeWhile ok
          = [] then
        findTok pat ok cs
      else
        some ((((c :: cs).drop pat.length).dropWhile (fun d => d.isWhitespace)).takeWhile ok,
          (((c :: cs).drop pat.length).dropWhile (fun d => d.isWhitespace)).dropWhile ok)
    else findTok pat ok cs

/-- Executable model of
`re.search(r'TPS\s*\(Transactions Per Second\):\s*([\d.]+).*?Средняя
задержка:\s*([\d.]+).*?Обработано транзакций:\s*(\d+)', content,
re.DOTALL)`: the three captured numeric tokens, or `none` when the
pattern does not match. -/
def matchOltp (s : List Char) : Option (List Char × List Char × List Char) :=
  match findTok tpsLbl numch s with
  | none => none
  | some (t1, r1) =>
    match findTok latLbl numch r1 with
    | none => none
    | some (t2, r2) =>
      match findTok txLbl Char.isDigit r2 with
      | none => none
      | some (t3, _) => some (t1, t2, t3)

/-- Value of a nonempty digit string, as computed by Python `int`. -/
def digitsToNat (t : List Char) : ℕ :=
  t.foldl (fun n c => n * 10 + (c.toNat - '0'.toNat)) 0

/-- Python `float` applied to a `[\d.]+` token: defined exactly when the
token has at least one digit and at most one dot, in which case it
denotes the written decimal; `none` models the `ValueError`. -/
def parseFloat (t : List Char) : Option ℚ :=
  if t.count '.' ≤ 1 ∧ t.any Char.isDigit then
    let ip := t.takeWhile (fun c => !(c == '.'))
    let fp := (t.dropWhile (fun c => !(c == '.'))).drop 1
    some ((digitsToNat ip : ℚ) + (digitsToNat fp : ℚ) / (10 : ℚ) ^ fp.length)
  else none

/-- The pgbench extraction of `parse_results_sheet` (lines 88-98): the
outer `none` is an escaped `ValueError` from `float`, `some none` means
the pattern did not match (no OLTP measurement), `some (some o)` is a
produced measurement. -/
def oltpOf (content : List Char) : Option (Option Oltp) :=
  match matchOltp content with
  | none => some none
  | some (t1, t2, t3) =>
    match parseFloat t1, parseFloat t2 with
    | some a, some b => some (some ⟨a, b, digitsToNat t3⟩)
    | _, _ => none

/-- The structured result of parsing one transcript. -/
structure Parsed where
  fio : List (List Char × FioVals)
  pgbench : Option Oltp
deriving DecidableEq

/-- One raw transcript: its fio pattern matches and its full text. -/
structure Transcript where
  rows : List Row
  content : List Char

/-- The function `parse_results_sheet` for one transcript: `none` models the
`except` branch returning `None` (the file is skipped entirely). -/
def parse_results_sheet (t : Transcript) : Option Parsed :=
  match parseFio t.rows, oltpOf t.content with
  | some fio, some pg => some ⟨fio, pg⟩
  | _, _ => none

/-- Exact arithmetic mean, the value computed by `statistics.mean`. -/
def mean (xs : List ℚ) : ℚ := xs.sum / (xs.length : ℚ)

/-- Exact sample variance (denominator `n - 1`), the radicand computed
by `statistics.stdev`. -/
def variance (xs : List ℚ) : ℚ :=
  ((xs.map (fun x => (x - mean xs) ^ 2)).sum) / ((xs.length : ℚ) - 1)

/-- The function `statistics.stdev` with the final square root kept abstract as a
deterministic function `sq` of the exact variance. -/
def stdev (sq : ℚ → ℚ) (xs : List ℚ) : ℚ := sq (variance xs)

/-- The per-TestKey statistics record built by `aggregate_results`
(lines 173-181). -/
structure AggMetric where
  IOPS_mean : ℚ
  IOPS_stdev : ℚ
  Bandwidth_mean : ℚ
  Bandwidth_stdev : ℚ
  Latency_mean : ℚ
  Latency_stdev : ℚ
  samples : ℕ
deriving DecidableEq

/-- The per-key sample collection loop of `aggregate_results` (lines
164-169): each parsed transcript contributes its value for `k` exactly
when `k` is present in its fio mapping. -/
def samplesFor (k : List Char) (ts : List Parsed) : List FioVals :=
  ts.filterMap (fun t => lookupKV k t.fio)

/-- The statistics record over one key's sample list (lines 172-181 of
the source, with `vals` the collected samples for the key). -/
def metricOf (sq : ℚ → ℚ) (vals : List FioVals) : AggMetric :=
  { IOPS_mean := mean (vals.map FioVals.IOPS)
    IOPS_stdev := if 1 < vals.length then stdev sq (vals.map FioVals.IOPS) else 0
    Bandwidth_mean := mean (vals.map FioVals.Bandwidth)
    Bandwidth_stdev := if 1 < vals.length then stdev sq (vals.map FioVals.Bandwidth) else 0
    Latency_mean := mean (vals.map FioVals.Latency)
    Latency_stdev := if 1 < vals.length then stdev sq (vals.map FioVals.Latency) else 0
    samples := vals.length }

/-- The aggregated statistics `aggregate_results` emits for one TestKey
(lines 171-181): `none` when no transcript reported the key. -/
def fioMetricFor (sq : ℚ → ℚ) (k : List Char) (ts : List Parsed) :
    Option AggMetric :=
  if samplesFor k ts = [] then none else some (metricOf sq (samplesFor k ts))

/-- The aggregated pgbench statistics record (lines 198-204). -/
structure PgAgg where
  TPS_mean : ℚ
  TPS_stdev : ℚ
  Latency_Avg_mean : ℚ
  Latency_Avg_stdev : ℚ
  samples : ℕ
deriving DecidableEq

/-- The OLTP measurements contributed across all parsed transcripts
(lines 187-194 of the source). -/
def pgSamples (ts : List Parsed) : List Oltp := ts.filterMap Parsed.pgbench

/-- The pgbench statistics record over the collected measurements. -/
def pgAggOf (sq : ℚ → ℚ) (pgs : List Oltp) : PgAgg :=
  { TPS_mean := mean (pgs.map Oltp.TPS)
    TPS_stdev := if 1 < pgs.length then stdev sq (pgs.map Oltp.TPS) else 0
    Latency_Avg_mean := if pgs.map Oltp.Latency_Avg = [] then 0
      else mean (pgs.map Oltp.Latency_Avg)
    Latency_Avg_stdev := if 1 < pgs.length ∧ pgs.map Oltp.Latency_Avg ≠ [] then
      stdev sq (pgs.map Oltp.Latency_Avg) else 0
    samples := pgs.length }

/-- The pgbench aggregation of `aggregate_results` (lines 184-204):
`none` exactly in the `pgbench`-not-found case, in which
`aggregated['pgbench']` stays the empty (absent) dict. -/
def aggregatePg (sq : ℚ → ℚ) (ts : List Parsed) : Option PgAgg :=
  if pgSamples ts = [] then none else some (pgAggOf sq (pgSamples ts))

/-- Declarative matchability of the pgbench pattern: the text decomposes
into the three labels in order, each followed by optional whitespace and
a nonempty numeric token, with arbitrary text in between (the `.*?`
segments under `re.DOTALL`). -/
def OrderedMatch (s : List Char) : Prop :=
  ∃ a w1 t1 b w2 t2 c w3 t3 d : List Char,
    s = a ++ tpsLbl ++ w1 ++ t1 ++ b ++ latLbl ++ w2 ++ t2 ++ c ++
        txLbl ++ w3 ++ t3 ++ d ∧
    (∀ ch ∈ w1, ch.isWhitespace = true) ∧
    (∀ ch ∈ w2, ch.isWhitespace = true) ∧
    (∀ ch ∈ w3, ch.isWhitespace = true) ∧
    t1 ≠ [] ∧ (∀ ch ∈ t1, numch ch = true) ∧
    t2 ≠ [] ∧ (∀ ch ∈ t2, numch ch = true) ∧
    t3 ≠ [] ∧ (∀ ch ∈ t3, ch.isDigit = true)

/-- Check that `pat` cannot overlap a shifted copy of itself: no proper nonempty
shift of `pat` is an initial segment of `pat`. -/
def selfFree (pat : List Char) : Bool :=
  (List.range pat.length).all
    (fun k => decide (k = 0) || !(leadsWith (pat.drop k) pat))

/-- Sample row: an ordinary sequential-read measurement. -/
def rowSR : Row := ⟨1, "Sequential Read".toList, 100, 400, 1⟩

/-- Sample row: an ordinary random-read measurement. -/
def rowRR : Row := ⟨2, "Random Read".toList, 200, 800, 2⟩

/-- Sample row: a mixed-workload read row whose label carries a VM tag. -/
def rowMA : Row := ⟨5, "Mixed RW Read A".toList, 100, 400, 1⟩

/-- Sample row: a second, distinct mixed-workload read row. -/
def rowMB : Row := ⟨5, "Mixed RW Read B".toList, 200, 800, 2⟩

/-- Sample parsed transcript reporting `Random Read`. -/
def pRR1 : Parsed := ⟨[("Random Read".toList, ⟨100, 400, 1⟩)], none⟩

/-- Second sample parsed transcript reporting `Random Read`. -/
def pRR2 : Parsed := ⟨[("Random Read".toList, ⟨300, 1200, 3⟩)], none⟩

/-- Sample parsed transcript that does not report `Random Read`. -/
def pSW : Parsed := ⟨[("Sequential Write".toList, ⟨50, 100, 1⟩)], none⟩

/-- A transcript text containing all three pgbench labels, each followed
by its numeric field, but in the wrong order (transaction count first). -/
def cBad : List Char :=
  ("Обработано транзакций: 500\nTPS (Transactions Per Second): 100.5\nСредняя задержка: 2.5").toList

/-! ### Basic lemmas about the text helpers -/

lemma leadsWith_iff (p s : List Char) :
    leadsWith p s = true ↔ ∃ z, s = p ++ z := by
  induction p generalizing s with
  | nil => simp [leadsWith]
  | cons a ps ih =>
    cases s with
    | nil =>
      simp only [leadsWith, List.cons_append]
      constructor
      · intro h; cases h
      · rintro ⟨z, h⟩; cases h
    | cons c cs =>
      simp only [leadsWith, Bool.and_eq_true, beq_iff_eq, ih, List.cons_append]
      constructor
      · rintro ⟨rfl, z, rfl⟩; exact ⟨z, rfl⟩
      · rintro ⟨z, h⟩
        injection h with h1 h2
        exact ⟨h1.symm, z, h2⟩

lemma leadsWith_append (p z : List Char) : leadsWith p (p ++ z) = true :=
  (leadsWith_iff p (p ++ z)).mpr ⟨z, rfl⟩

lemma containsSub_iff (p s : List Char) :
    containsSub p s = true ↔ ∃ x y, s = x ++ p ++ y := by
  induction s with
  | nil =>
    simp only [containsSub, leadsWith_iff]
    constructor
    · rintro ⟨z, h⟩
      exact ⟨[], z, by simpa using h⟩
    · rintro ⟨x, y, h⟩
      rw [List.nil_eq, List.append_assoc, List.append_eq_nil] at h
      exact ⟨y, by simp [h.1, h.2]⟩
  | cons c cs ih =>
    simp only [containsSub, Bool.or_eq_true, leadsWith_iff, ih]
    constructor
    · rintro (⟨z, h⟩ | ⟨x, y, h⟩)
      · exact ⟨[], z, by simpa using h⟩
      · exact ⟨c :: x, y, by simp [h]⟩
    · rintro ⟨x, y, h⟩
      cases x with
      | nil => exact Or.inl ⟨y, by simpa using h⟩
      | cons a xs =>
        injection h with h1 h2
        exact Or.inr ⟨xs, y, h2⟩

lemma containsSub_of_inner (u p v s : List Char)
    (h : containsSub (u ++ p ++ v) s = true) : containsSub p s = true := by
  rcases (containsSub_iff _ s).mp h with ⟨x, y, rfl⟩
  exact (containsSub_iff p _).mpr ⟨x ++ u, v ++ y, by simp⟩

lemma writeExc_eq_contains (name : List Char) :
    writeExc name = containsSub ("Write".toList) name := by
  unfold writeExc writeExceptions
  simp only [List.any_cons, List.any_nil, Bool.or_false]
  cases hW : containsSub ("Write".toList) name with
  | true => simp
  | false =>
    simp only [Bool.false_or]
    cases hR : containsSub ("RW (Write)".toList) name with
    | false => rfl
    | true =>
      have heq : "RW (".toList ++ "Write".toList ++ ")".toList = "RW (Write)".toList := by
        decide
      have hc : containsSub ("Write".toList) name = true :=
        containsSub_of_inner ("RW (".toList) ("Write".toList) (")".toList) name
          (by rw [heq]; exact hR)
      rw [hW] at hc
      cases hc

/-! ### Validator claims -/

/-- Claim C6: a rate above the 100000 high-water mark, or a throughput
above the 10000 high-water mark, makes the Validator reject the
measurement regardless of every other field. -/
theorem highWater_rejects (name : List Char) (r t l : ℚ)
    (h : r > 100000 ∨ t > 10000) :
    validate_fio_data name r t l = some false := by
  have ha : anomalous name r t = true := by
    unfold anomalous
    rcases h with h | h
    · exact decide_eq_true (Or.inl h)
    · exact decide_eq_true (Or.inr (Or.inl h))
  rw [validate_fio_data, ha]
  simp

/-- Witness for C6 at a concrete input: rate 200000 is rejected. -/
theorem highWater_rejects_witness :
    validate_fio_data ("Sequential Read".toList) 200000 1 1 = some false :=
  highWater_rejects ("Sequential Read".toList) 200000 1 1 (Or.inl (by norm_num))

/-- Claim C7: for a measurement with positive rate and throughput that
passes the high-water marks, the ratio rule accepts exactly when the
observed throughput lies within `[0.8, 1.2] × (rate × 4)`, with the
floor relaxed to `0.5 ×` when the label contains the write marker. -/
theorem ratio_window_iff (name : List Char) (r t : ℚ)
    (h1 : 0 < r) (h2 : 0 < t) (h3 : r ≤ 100000) (h4 : t ≤ 10000) :
    anomalous name r t = false ↔
      ((if containsSub ("Write".toList) name = true then (0.5 : ℚ) else 0.8) * (r * 4) ≤ t
        ∧ t ≤ 1.2 * (r * 4)) := by
  rw [anomalous, decide_eq_false_iff_not]
  unfold minAllowed maxAllowed expectedBw
  rw [writeExc_eq_contains]
  cases hcw : containsSub ("Write".toList) name with
  | true =>
    simp only [eq_self_iff_true, if_true]
    constructor
    · intro hn
      by_contra hcon
      apply hn
      refine Or.inr (Or.inr ⟨h2, h1, ?_⟩)
      rintro ⟨ha, hb⟩
      exact hcon ⟨by linarith, by linarith⟩
    · rintro ⟨ha, hb⟩ (hh | hh | ⟨-, -, hcl⟩)
      · linarith
      · linarith
      · exact hcl ⟨by linarith, by linarith⟩
  | false =>
    simp only [Bool.false_eq_true, if_false]
    constructor
    · intro hn
      by_contra hcon
      apply hn
      refine Or.inr (Or.inr ⟨h2, h1, ?_⟩)
      rintro ⟨ha, hb⟩
      exact hcon ⟨by linarith, by linarith⟩
    · rintro ⟨ha, hb⟩ (hh | hh | ⟨-, -, hcl⟩)
      · linarith
      · linarith
      · exact hcl ⟨by linarith, by linarith⟩

/-- Witness for C7 at a concrete input: a write-marked label with
throughput at half the expected value passes the ratio rule. -/
theorem ratio_window_iff_witness :
    anomalous ("Random Write".toList) 100 300 = false ↔
      ((if containsSub ("Write".toList) ("Random Write".toList) = true then (0.5 : ℚ) else 0.8)
          * ((100 : ℚ) * 4) ≤ 300
        ∧ (300 : ℚ) ≤ 1.2 * ((100 : ℚ) * 4)) :=
  ratio_window_iff ("Random Write".toList) 100 300 (by norm_num) (by norm_num)
    (by norm_num) (by norm_num)

/-- Claim C10: when the rate or the throughput is zero, the ratio check
is skipped entirely, and the verdict reduces to the high-water marks
and the latency ceiling alone — even when the throughput is arbitrarily
far from `rate × 4`. -/
theorem zeroRate_skips_ratio (name : List Char) (r t l M : ℚ)
    (h0 : r = 0 ∨ t = 0) (hM : maxLatencyOf name = some M) :
    validate_fio_data name r t l = some true ↔
      (r ≤ 100000 ∧ t ≤ 10000 ∧ l ≤ M) := by
  have hthird :
      ¬ (t > 0 ∧ r > 0 ∧ ¬ (minAllowed name r ≤ t ∧ t ≤ maxAllowed r)) := by
    rintro ⟨ht', hr', -⟩
    rcases h0 with rfl | rfl
    · exact lt_irrefl 0 hr'
    · exact lt_irrefl 0 ht'
  by_cases hhw : r > 100000 ∨ t > 10000
  · have ha : anomalous name r t = true := by
      unfold anomalous
      rcases hhw with h | h
      · exact decide_eq_true (Or.inl h)
      · exact decide_eq_true (Or.inr (Or.inl h))
    rw [validate_fio_data, ha]
    constructor
    · intro hfalse; simp at hfalse
    · rintro ⟨c1, c2, -⟩
      exfalso; rcases hhw with h | h <;> linarith
  · push_neg at hhw
    have ha : anomalous name r t = false := by
      rw [anomalous, decide_eq_false_iff_not]
      rintro (h | h | h3)
      · exact absurd h (not_lt.mpr hhw.1)
      · exact absurd h (not_lt.mpr hhw.2)
      · exact hthird h3
    rw [validate_fio_data, ha, hM]
    simp only [Bool.false_eq_true, if_false]
    by_cases hl : l > M
    · rw [if_pos hl]
      constructor
      · intro hv
        exact absurd (Option.some.inj hv) (by simp)
      · rintro ⟨-, -, hle⟩
        exact absurd hle (not_le.mpr hl)
    · rw [if_neg hl]
      push_neg at hl
      constructor
      · intro _; exact ⟨hhw.1, hhw.2, hl⟩
      · intro _; rfl

/-- Witness for C10: a zero rate with throughput 9999 (arbitrarily far
from `rate × 4 = 0`) is accepted. -/
theorem zeroRate_skips_ratio_witness :
    validate_fio_data ("Sequential Read".toList) 0 9999 5 = some true ↔
      ((0 : ℚ) ≤ 100000 ∧ (9999 : ℚ) ≤ 10000 ∧ (5 : ℚ) ≤ 300) :=
  zeroRate_skips_ratio ("Sequential Read".toList) 0 9999 5 300
    (Or.inl rfl) (by decide)

/-- Claim C1 (amended): when the throughput equals `rate × 4` exactly,
the ratio window never rejects; the verdict is acceptance if and only
if both high-water marks and the label's latency ceiling are
respected. -/
theorem exactRatio_acceptance (name : List Char) (r l M : ℚ)
    (hr : 0 ≤ r) (hM : maxLatencyOf name = some M) :
    validate_fio_data name r (r * 4) l = some true ↔
      (r ≤ 100000 ∧ r * 4 ≤ 10000 ∧ l ≤ M) := by
  have hratio : minAllowed name r ≤ r * 4 ∧ r * 4 ≤ maxAllowed r := by
    constructor
    · unfold minAllowed expectedBw
      split_ifs <;> linarith
    · unfold maxAllowed expectedBw
      linarith
  by_cases hhw : r > 100000 ∨ r * 4 > 10000
  · have ha : anomalous name r (r * 4) = true := by
      unfold anomalous
      rcases hhw with h | h
      · exact decide_eq_true (Or.inl h)
      · exact decide_eq_true (Or.inr (Or.inl h))
    rw [validate_fio_data, ha]
    constructor
    · intro hfalse; simp at hfalse
    · rintro ⟨c1, c2, -⟩
      exfalso; rcases hhw with h | h <;> linarith
  · push_neg at hhw
    have ha : anomalous name r (r * 4) = false := by
      rw [anomalous, decide_eq_false_iff_not]
      rintro (h | h | ⟨-, -, h3⟩)
      · exact absurd h (not_lt.mpr hhw.1)
      · exact absurd h (not_lt.mpr hhw.2)
      · exact h3 hratio
    rw [validate_fio_data, ha, hM]
    simp only [Bool.false_eq_true, if_false]
    by_cases hl : l > M
    · rw [if_pos hl]
      constructor
      · intro hv
        exact absurd (Option.some.inj hv) (by simp)
      · rintro ⟨-, -, hle⟩
        exact absurd hle (not_le.mpr hl)
    · rw [if_neg hl]
      push_neg at hl
      constructor
      · intro _; exact ⟨hhw.1, hhw.2, hl⟩
      · intro _; rfl

/-- Witness for C1 (amended) at a concrete input. -/
theorem exactRatio_acceptance_witness :
    validate_fio_data ("Sequential Read".toList) 100 ((100 : ℚ) * 4) 1 = some true ↔
      ((100 : ℚ) ≤ 100000 ∧ (100 : ℚ) * 4 ≤ 10000 ∧ (1 : ℚ) ≤ 300) :=
  exactRatio_acceptance ("Sequential Read".toList) 100 1 300 (by norm_num) (by decide)

/-- Counterexample to C1 as stated: throughput `200000 = 50000 × 4` is
exact, yet the Validator rejects because the throughput high-water mark
fires. -/
theorem exactRatio_cex :
    (200000 : ℚ) = 50000 * 4 ∧
      validate_fio_data ("Random Read".toList) 50000 200000 1 = some false := by
  constructor
  · norm_num
  · have ha : anomalous ("Random Read".toList) 50000 200000 = true := by
      unfold anomalous
      exact decide_eq_true (Or.inr (Or.inl (by norm_num)))
    rw [validate_fio_data, ha]
    simp

/-- Claim C3: the code's own latency table names the class
`Sequential Read` with ceiling 50 ms, but the lookup key is the label's
first word, so the table entry is never found: latency 60 ms on a
`Sequential Read` measurement is accepted instead of rejected. -/
theorem seqRead_ceiling_not_applied :
    validate_fio_data ("Sequential Read".toList) 100 400 60 = some true ∧
      lookupKV ("Sequential Read".toList) latTable = some 50 ∧ (50 : ℚ) < 60 := by
  refine ⟨?_, by decide, by norm_num⟩
  have ha : anomalous ("Sequential Read".toList) 100 400 = false := by
    have hw : writeExc ("Sequential Read".toList) = false := by decide
    unfold anomalous minAllowed maxAllowed expectedBw
    rw [hw]
    norm_num
  have hm : maxLatencyOf ("Sequential Read".toList) = some 300 := by decide
  rw [validate_fio_data, ha, hm]
  norm_num

/-! ### Aggregation claims -/

lemma mean_perm {xs ys : List ℚ} (h : xs.Perm ys) : mean xs = mean ys := by
  unfold mean
  rw [h.sum_eq, h.length_eq]

lemma variance_perm {xs ys : List ℚ} (h : xs.Perm ys) :
    variance xs = variance ys := by
  unfold variance
  rw [mean_perm h, h.length_eq, List.Perm.sum_eq (h.map fun x => (x - mean ys) ^ 2)]

/-- Claim C4: folding the parsed transcripts in any order produces
identical statistics (mean, stdev, sample count) for every TestKey. -/
theorem order_independent_agg (sq : ℚ → ℚ) (ts ts' : List Parsed)
    (h : ts.Perm ts') (k : List Char) :
    fioMetricFor sq k ts = fioMetricFor sq k ts' := by
  have hp : (samplesFor k ts).Perm (samplesFor k ts') := h.filterMap _
  by_cases hn : samplesFor k ts = []
  · have hn' : samplesFor k ts' = [] := by
      have hl := hp.length_eq
      rw [hn] at hl
      exact List.length_eq_zero.mp hl.symm
    rw [fioMetricFor, fioMetricFor, if_pos hn, if_pos hn']
  · have hn' : samplesFor k ts' ≠ [] := by
      intro hh
      apply hn
      have hl := hp.length_eq
      rw [hh] at hl
      exact List.length_eq_zero.mp hl
    rw [fioMetricFor, fioMetricFor, if_neg hn, if_neg hn']
    have hl : (samplesFor k ts).length = (samplesFor k ts').length := hp.length_eq
    have hi := hp.map FioVals.IOPS
    have hb := hp.map FioVals.Bandwidth
    have hlat := hp.map FioVals.Latency
    congr 1
    simp only [metricOf, AggMetric.mk.injEq]
    refine ⟨mean_perm hi, ?_, mean_perm hb, ?_, mean_perm hlat, ?_, hl⟩ <;> rw [hl]
    · exact if_congr Iff.rfl (by simp only [stdev]; rw [variance_perm hi]) rfl
    · exact if_congr Iff.rfl (by simp only [stdev]; rw [variance_perm hb]) rfl
    · exact if_congr Iff.rfl (by simp only [stdev]; rw [variance_perm hlat]) rfl

/-- Witness for C4: swapping two concrete transcripts leaves the
`Random Read` statistics unchanged. -/
theorem order_independent_agg_witness :
    fioMetricFor id ("Random Read".toList) [pRR1, pRR2] =
      fioMetricFor id ("Random Read".toList) [pRR2, pRR1] :=
  order_independent_agg id [pRR1, pRR2] [pRR2, pRR1]
    (List.Perm.swap pRR2 pRR1 []) ("Random Read".toList)

/-- Claim C5: every emitted AggregatedMetric has `sample_count ≥ 1`, and
a single-sample metric has every stdev field exactly 0. -/
theorem singleton_stdev_zero (sq : ℚ → ℚ) (k : List Char) (ts : List Parsed)
    (m : AggMetric) (h : fioMetricFor sq k ts = some m) :
    1 ≤ m.samples ∧ (m.samples = 1 →
      m.IOPS_stdev = 0 ∧ m.Bandwidth_stdev = 0 ∧ m.Latency_stdev = 0) := by
  rw [fioMetricFor] at h
  by_cases hnil : samplesFor k ts = []
  · rw [if_pos hnil] at h
    cases h
  · rw [if_neg hnil] at h
    cases h
    refine ⟨?_, ?_⟩
    · show 1 ≤ (samplesFor k ts).length
      have hpos := List.length_pos.mpr hnil
      omega
    · intro h1
      have h1' : (samplesFor k ts).length = 1 := h1
      refine ⟨?_, ?_, ?_⟩
      · show (if 1 < (samplesFor k ts).length then
            stdev sq ((samplesFor k ts).map FioVals.IOPS) else 0) = (0 : ℚ)
        rw [h1']
        norm_num
      · show (if 1 < (samplesFor k ts).length then
            stdev sq ((samplesFor k ts).map FioVals.Bandwidth) else 0) = (0 : ℚ)
        rw [h1']
        norm_num
      · show (if 1 < (samplesFor k ts).length then
            stdev sq ((samplesFor k ts).map FioVals.Latency) else 0) = (0 : ℚ)
        rw [h1']
        norm_num

/-- Witness for C5: a single contributing transcript yields
`sample_count = 1` and zero stdevs. -/
theorem singleton_stdev_zero_witness :
    1 ≤ (metricOf id (samplesFor ("Random Read".toList) [pRR1])).samples ∧
      ((metricOf id (samplesFor ("Random Read".toList) [pRR1])).samples = 1 →
        (metricOf id (samplesFor ("Random Read".toList) [pRR1])).IOPS_stdev = 0 ∧
        (metricOf id (samplesFor ("Random Read".toList) [pRR1])).Bandwidth_stdev = 0 ∧
        (metricOf id (samplesFor ("Random Read".toList) [pRR1])).Latency_stdev = 0) :=
  singleton_stdev_zero id ("Random Read".toList) [pRR1] _
    (by rw [fioMetricFor, if_neg (by decide)])

/-- Claim C8: a transcript that does not report a TestKey contributes no
sample to that key's statistics: removing it from the fold leaves the
key's aggregated metric unchanged. -/
theorem absent_key_no_contribution (sq : ℚ → ℚ) (k : List Char) (t : Parsed)
    (l1 l2 : List Parsed) (h : lookupKV k t.fio = none) :
    fioMetricFor sq k (l1 ++ t :: l2) = fioMetricFor sq k (l1 ++ l2) := by
  have hs : samplesFor k (l1 ++ t :: l2) = samplesFor k (l1 ++ l2) := by
    unfold samplesFor
    rw [List.filterMap_append, List.filterMap_append]
    congr 1
    simp [List.filterMap_cons, h]
  rw [fioMetricFor, fioMetricFor, hs]

/-- Witness for C8: a `Sequential Write`-only transcript does not change
the `Random Read` statistics. -/
theorem absent_key_no_contribution_witness :
    fioMetricFor id ("Random Read".toList) ([pRR1] ++ pSW :: []) =
      fioMetricFor id ("Random Read".toList) ([pRR1] ++ []) :=
  absent_key_no_contribution id ("Random Read".toList) pSW [pRR1] [] (by decide)

/-! ### Key disambiguation claims -/

lemma lookup_insert_self {α : Type} (k : List Char) (v : α)
    (l : List (List Char × α)) : lookupKV k (insertKV k v l) = some v := by
  induction l with
  | nil => simp [insertKV, lookupKV]
  | cons p rest ih =>
    obtain ⟨k', v'⟩ := p
    by_cases hk : k' = k
    · subst hk
      simp [insertKV, lookupKV]
    · simp [insertKV, lookupKV, hk, ih]

lemma lookup_insert_other {α : Type} (k k' : List Char) (v : α)
    (l : List (List Char × α)) (h : k' ≠ k) :
    lookupKV k (insertKV k' v l) = lookupKV k l := by
  induction l with
  | nil => simp [insertKV, lookupKV, h]
  | cons p rest ih =>
    obtain ⟨k2, v2⟩ := p
    by_cases h2 : k2 = k'
    · subst h2
      have h2k : ¬ k2 = k := h
      simp [insertKV, lookupKV, h2k]
    · by_cases h3 : k2 = k
      · subst h3
        simp [insertKV, lookupKV, h2]
      · simp [insertKV, lookupKV, h2, h3, ih]

lemma uniqueKey_plain (name : List Char)
    (h : containsSub mixedLbl name = false) : uniqueKey name = name := by
  unfold uniqueKey
  rw [h]
  simp

lemma parseFioAux_lookup_frozen (rows : List Row)
    (acc m : List (List Char × FioVals)) (k : List Char)
    (hk : ∀ r ∈ rows, uniqueKey r.name ≠ k)
    (h : parseFioAux rows acc = some m) :
    lookupKV k m = lookupKV k acc := by
  induction rows generalizing acc with
  | nil =>
    cases h
    rfl
  | cons r rs ih =>
    cases hv : validate_fio_data r.name r.iops r.bw r.lat with
    | none =>
      simp only [parseFioAux, hv] at h
      cases h
    | some b =>
      cases b with
      | true =>
        simp only [parseFioAux, hv] at h
        have hrest := ih _ (fun r' hr' => hk r' (List.mem_cons_of_mem _ hr')) h
        rw [hrest, lookup_insert_other _ _ _ _ (hk r (List.mem_cons_self _ _))]
      | false =>
        simp only [parseFioAux, hv] at h
        exact ih _ (fun r' hr' => hk r' (List.mem_cons_of_mem _ hr')) h

lemma parseFioAux_retains (rows : List Row)
    (acc m : List (List Char × FioVals))
    (hnd : rows.Pairwise (fun a b => a.name ≠ b.name))
    (hmx : ∀ r ∈ rows, containsSub mixedLbl r.name = false)
    (h : parseFioAux rows acc = some m) :
    ∀ r ∈ rows, validate_fio_data r.name r.iops r.bw r.lat = some true →
      lookupKV r.name m = some ⟨r.iops, r.bw, r.lat⟩ := by
  induction rows generalizing acc with
  | nil =>
    intro r hr
    cases hr
  | cons r0 rs ih =>
    intro r hr hv
    rcases List.mem_cons.mp hr with rfl | hr'
    · simp only [parseFioAux, hv] at h
      have hkey : uniqueKey r.name = r.name :=
        uniqueKey_plain _ (hmx r (List.mem_cons_self _ _))
      rw [hkey] at h
      have hfr : ∀ r' ∈ rs, uniqueKey r'.name ≠ r.name := by
        intro r' hr''
        rw [uniqueKey_plain _ (hmx r' (List.mem_cons_of_mem _ hr''))]
        exact fun hcon => (List.pairwise_cons.mp hnd).1 r' hr'' hcon.symm
      rw [parseFioAux_lookup_frozen rs _ m r.name hfr h, lookup_insert_self]
    · cases hv0 : validate_fio_data r0.name r0.iops r0.bw r0.lat with
      | none =>
        simp only [parseFioAux, hv0] at h
        cases h
      | some b =>
        cases b with
        | true =>
          simp only [parseFioAux, hv0] at h
          exact ih _ (List.pairwise_cons.mp hnd).2
            (fun r' hr'' => hmx r' (List.mem_cons_of_mem _ hr'')) h r hr' hv
        | false =>
          simp only [parseFioAux, hv0] at h
          exact ih _ (List.pairwise_cons.mp hnd).2
            (fun r' hr'' => hmx r' (List.mem_cons_of_mem _ hr'')) h r hr' hv

lemma keys_insert {α : Type} (k : List Char) (v : α)
    (l : List (List Char × α)) :
    (insertKV k v l).map Prod.fst =
      if k ∈ l.map Prod.fst then l.map Prod.fst else l.map Prod.fst ++ [k] := by
  induction l with
  | nil =>
    rw [List.map_nil, if_neg (List.not_mem_nil k)]
    simp [insertKV]
  | cons p rest ih =>
    obtain ⟨k', v'⟩ := p
    by_cases hk : k' = k
    · subst hk
      have hil : insertKV k' v ((k', v') :: rest) = (k', v) :: rest := by
        rw [insertKV, if_pos rfl]
      rw [hil, if_pos (by rw [List.map_cons]; exact List.mem_cons_self _ _),
        List.map_cons, List.map_cons]
    · have hil : insertKV k v ((k', v') :: rest) = (k', v') :: insertKV k v rest := by
        rw [insertKV, if_neg hk]
      rw [hil, List.map_cons, List.map_cons, ih]
      by_cases hmem : k ∈ rest.map Prod.fst
      · rw [if_pos hmem, if_pos (List.mem_cons_of_mem _ hmem)]
      · have hnm : k ∉ k' :: rest.map Prod.fst := by
          intro hc
          rcases List.mem_cons.mp hc with hc | hc
          · exact hk hc.symm
          · exact hmem hc
        rw [if_neg hmem, if_neg hnm, List.cons_append]

lemma insert_keys_nodup {α : Type} (k : List Char) (v : α)
    (l : List (List Char × α)) (h : (l.map Prod.fst).Nodup) :
    ((insertKV k v l).map Prod.fst).Nodup := by
  rw [keys_insert]
  split_ifs with hmem
  · exact h
  · simp [List.nodup_append, h, hmem]

lemma parseFioAux_keys_nodup (rows : List Row)
    (acc m : List (List Char × FioVals))
    (h : parseFioAux rows acc = some m)
    (hacc : (acc.map Prod.fst).Nodup) : (m.map Prod.fst).Nodup := by
  induction rows generalizing acc with
  | nil =>
    cases h
    exact hacc
  | cons r rs ih =>
    cases hv : validate_fio_data r.name r.iops r.bw r.lat with
    | none =>
      simp only [parseFioAux, hv] at h
      cases h
    | some b =>
      cases b with
      | true =>
        simp only [parseFioAux, hv] at h
        exact ih _ h (insert_keys_nodup _ _ _ hacc)
      | false =>
        simp only [parseFioAux, hv] at h
        exact ih _ h hacc

/-- Claim C2 (amended): the TestKey is a function of the label alone;
when the validated rows of a transcript have pairwise-distinct labels
none of which carries the combined-workload marker, the keying is
injective (the stored keys are pairwise distinct) and every validated
row's values are retained under its own label. -/
theorem distinct_labels_injective_retained (rows : List Row)
    (m : List (List Char × FioVals))
    (hnd : rows.Pairwise (fun a b => a.name ≠ b.name))
    (hmx : ∀ r ∈ rows, containsSub mixedLbl r.name = false)
    (hp : parseFio rows = some m) :
    (∀ r ∈ rows, validate_fio_data r.name r.iops r.bw r.lat = some true →
        lookupKV r.name m = some ⟨r.iops, r.bw, r.lat⟩) ∧
      (m.map Prod.fst).Nodup :=
  ⟨parseFioAux_retains rows [] m hnd hmx hp,
   parseFioAux_keys_nodup rows [] m hp (by simp)⟩

/-- Counterexample to C2 as stated: two validated measurements with
distinct labels (`Mixed RW Read A` / `Mixed RW Read B`) collide on the
TestKey `Mixed RW (Read)`; the transcript's result keeps only the
second row's values, so the keying is not injective and the first
row's values are not retained. -/
theorem mixed_rw_key_collision :
    rowMA.name ≠ rowMB.name ∧
      validate_fio_data rowMA.name rowMA.iops rowMA.bw rowMA.lat = some true ∧
      validate_fio_data rowMB.name rowMB.iops rowMB.bw rowMB.lat = some true ∧
      uniqueKey rowMA.name = uniqueKey rowMB.name ∧
      parseFio [rowMA, rowMB] =
        some [("Mixed RW (Read)".toList, ⟨200, 800, 2⟩)] := by
  have hA : validate_fio_data rowMA.name rowMA.iops rowMA.bw rowMA.lat = some true := by
    have ha : anomalous rowMA.name 100 400 = false := by
      have hw : writeExc rowMA.name = false := by decide
      unfold anomalous minAllowed maxAllowed expectedBw
      rw [hw]
      norm_num
    have hm : maxLatencyOf rowMA.name = some 200 := by decide
    show validate_fio_data rowMA.name 100 400 1 = some true
    rw [validate_fio_data, ha, hm]
    norm_num
  have hB : validate_fio_data rowMB.name rowMB.iops rowMB.bw rowMB.lat = some true := by
    have ha : anomalous rowMB.name 200 800 = false := by
      have hw : writeExc rowMB.name = false := by decide
      unfold anomalous minAllowed maxAllowed expectedBw
      rw [hw]
      norm_num
    have hm : maxLatencyOf rowMB.name = some 200 := by decide
    show validate_fio_data rowMB.name 200 800 2 = some true
    rw [validate_fio_data, ha, hm]
    norm_num
  refine ⟨by decide, hA, hB, by decide, ?_⟩
  rw [parseFio, parseFioAux, hA, parseFioAux, hB, parseFioAux]
  decide

/-- Witness for C2 (amended): a transcript with two distinct plain
labels retains both measurements under their own labels. -/
theorem distinct_labels_retained_witness :
    lookupKV rowSR.name
        [("Sequential Read".toList, (⟨100, 400, 1⟩ : FioVals)),
         ("Random Read".toList, (⟨200, 800, 2⟩ : FioVals))] =
      some (⟨rowSR.iops, rowSR.bw, rowSR.lat⟩ : FioVals) := by
  have hSR : validate_fio_data rowSR.name rowSR.iops rowSR.bw rowSR.lat = some true := by
    have ha : anomalous rowSR.name 100 400 = false := by
      have hw : writeExc rowSR.name = false := by decide
      unfold anomalous minAllowed maxAllowed expectedBw
      rw [hw]
      norm_num
    have hm : maxLatencyOf rowSR.name = some 300 := by decide
    show validate_fio_data rowSR.name 100 400 1 = some true
    rw [validate_fio_data, ha, hm]
    norm_num
  have hRR : validate_fio_data rowRR.name rowRR.iops rowRR.bw rowRR.lat = some true := by
    have ha : anomalous rowRR.name 200 800 = false := by
      have hw : writeExc rowRR.name = false := by decide
      unfold anomalous minAllowed maxAllowed expectedBw
      rw [hw]
      norm_num
    have hm : maxLatencyOf rowRR.name = some 300 := by decide
    show validate_fio_data rowRR.name 200 800 2 = some true
    rw [validate_fio_data, ha, hm]
    norm_num
  have hp : parseFio [rowSR, rowRR] =
      some [("Sequential Read".toList, ⟨100, 400, 1⟩),
            ("Random Read".toList, ⟨200, 800, 2⟩)] := by
    rw [parseFio, parseFioAux, hSR, parseFioAux, hRR, parseFioAux]
    decide
  exact (distinct_labels_injective_retained [rowSR, rowRR] _
      (by decide) (by decide) hp).1 rowSR (List.mem_cons_self _ _) hSR

/-! ### OLTP extraction: list and character helper lemmas -/

lemma dropWhile_all_append {α : Type} (p : α → Bool) (w z : List α)
    (hw : ∀ c ∈ w, p c = true) : (w ++ z).dropWhile p = z.dropWhile p := by
  induction w with
  | nil => rfl
  | cons c cs ih =>
    rw [List.cons_append, List.dropWhile_cons, if_pos (hw c (List.mem_cons_self _ _))]
    exact ih (fun c' hc' => hw c' (List.mem_cons_of_mem _ hc'))

lemma takeWhile_all_append {α : Type} (p : α → Bool) (w z : List α)
    (hw : ∀ c ∈ w, p c = true) : (w ++ z).takeWhile p = w ++ z.takeWhile p := by
  induction w with
  | nil => rfl
  | cons c cs ih =>
    rw [List.cons_append, List.takeWhile_cons, if_pos (hw c (List.mem_cons_self _ _)),
      ih (fun c' hc' => hw c' (List.mem_cons_of_mem _ hc')), List.cons_append]

lemma dropWhile_through {α : Type} (p : α → Bool) (b : List α) (hc : α)
    (zt : List α) (h : p hc = false) :
    ∃ b', (b ++ hc :: zt).dropWhile p = b' ++ hc :: zt := by
  induction b with
  | nil =>
    refine ⟨[], ?_⟩
    rw [List.nil_append, List.dropWhile_cons, if_neg (by simp [h])]
  | cons a bs ih =>
    by_cases hpa : p a = true
    · obtain ⟨b', hb'⟩ := ih
      exact ⟨b', by rw [List.cons_append, List.dropWhile_cons, if_pos hpa]; exact hb'⟩
    · exact ⟨a :: bs, by rw [List.cons_append, List.dropWhile_cons, if_neg hpa]⟩

lemma ws_not_numch (c : Char) (h : c.isWhitespace = true) : numch c = false := by
  simp only [Char.isWhitespace, Bool.or_eq_true, decide_eq_true_eq] at h
  rcases h with ((h | h) | h) | h <;> subst h <;> decide

lemma numch_not_ws (c : Char) (h : numch c = true) : c.isWhitespace = false := by
  cases hw : c.isWhitespace
  · rfl
  · rw [ws_not_numch c hw] at h
    cases h

lemma digit_not_ws (c : Char) (h : c.isDigit = true) : c.isWhitespace = false := by
  refine numch_not_ws c ?_
  simp [numch, h]

lemma selfFree_spec (pat : List Char) (hsf : selfFree pat = true)
    (a z z' : List Char) (ha : a ≠ []) (hlen : a.length < pat.length) :
    pat ++ z ≠ a ++ pat ++ z' := by
  intro heq
  have htake := congrArg (List.take pat.length) heq
  rw [List.take_left] at htake
  rw [List.append_assoc, List.take_append_eq_append_take,
    List.take_of_length_le (le_of_lt hlen),
    List.take_append_of_le_length (by omega)] at htake
  have hdrop := congrArg (List.drop a.length) htake
  rw [List.drop_left] at hdrop
  have hlw : leadsWith (pat.drop a.length) pat = true := by
    refine (leadsWith_iff _ _).mpr ⟨pat.drop (pat.length - a.length), ?_⟩
    rw [hdrop, List.take_append_drop]
  unfold selfFree at hsf
  rw [List.all_eq_true] at hsf
  have hk := hsf a.length (List.mem_range.mpr hlen)
  simp only [Bool.or_eq_true, decide_eq_true_eq, Bool.not_eq_true'] at hk
  rcases hk with hk | hk
  · exact ha (List.length_eq_zero.mp hk)
  · rw [hlw] at hk
    cases hk

lemma findTok_at_match (hp : Char) (pt : List Char) (ok : Char → Bool)
    (Z : List Char) :
    findTok (hp :: pt) ok ((hp :: pt) ++ Z) =
      if (Z.dropWhile (fun d => d.isWhitespace)).takeWhile ok = [] then
        findTok (hp :: pt) ok (pt ++ Z)
      else
        some ((Z.dropWhile (fun d => d.isWhitespace)).takeWhile ok,
          (Z.dropWhile (fun d => d.isWhitespace)).dropWhile ok) := by
  have hlw : leadsWith (hp :: pt) (hp :: (pt ++ Z)) = true := by
    have := leadsWith_append (hp :: pt) Z
    rwa [List.cons_append] at this
  have hdrop : (hp :: (pt ++ Z)).drop (hp :: pt).length = Z := by
    rw [List.length_cons, List.drop_succ_cons, List.drop_left]
  rw [List.cons_append, findTok, if_pos hlw, hdrop]

lemma findTok_sound (pat : List Char) (ok : Char → Bool) :
    ∀ (s t r : List Char), findTok pat ok s = some (t, r) →
      ∃ a w, s = a ++ pat ++ w ++ t ++ r ∧ (∀ c ∈ w, c.isWhitespace = true) ∧
        t ≠ [] ∧ (∀ c ∈ t, ok c = true) := by
  intro s
  induction s with
  | nil =>
    intro t r h
    cases h
  | cons c cs ih =>
    intro t r h
    by_cases hl : leadsWith pat (c :: cs) = true
    · by_cases he :
        (((c :: cs).drop pat.length).dropWhile (fun d => d.isWhitespace)).takeWhile ok = []
      · rw [findTok, if_pos hl, if_pos he] at h
        obtain ⟨a, w, hs, hw, ht, hok⟩ := ih t r h
        exact ⟨c :: a, w, by rw [hs]; simp, hw, ht, hok⟩
      · rw [findTok, if_pos hl, if_neg he] at h
        have hinj := Option.some.inj h
        obtain ⟨q, hq⟩ := (leadsWith_iff _ _).mp hl
        have hdq : (c :: cs).drop pat.length = q := by
          rw [hq, List.drop_left]
        rw [hdq] at hinj he
        have ht1 : (q.dropWhile (fun d => d.isWhitespace)).takeWhile ok = t :=
          congrArg Prod.fst hinj
        have hr1 : (q.dropWhile (fun d => d.isWhitespace)).dropWhile ok = r :=
          congrArg Prod.snd hinj
        refine ⟨[], q.takeWhile (fun d => d.isWhitespace), ?_, ?_, ?_, ?_⟩
        · rw [List.nil_append, hq, ← ht1, ← hr1, List.append_assoc, List.append_assoc,
            List.takeWhile_append_dropWhile, List.takeWhile_append_dropWhile]
        · exact fun c' hc' => List.mem_takeWhile_imp hc'
        · exact fun hcon => he (by rw [ht1, hcon])
        · intro c' hc'
          rw [← ht1] at hc'
          exact List.mem_takeWhile_imp hc'
    · rw [findTok, if_neg hl] at h
      obtain ⟨a, w, hs, hw, ht, hok⟩ := ih t r h
      exact ⟨c :: a, w, by rw [hs]; simp, hw, ht, hok⟩

lemma matchOltp_sound (s : List Char)
    (h : (matchOltp s).isSome = true) : OrderedMatch s := by
  cases h1 : findTok tpsLbl numch s with
  | none => simp [matchOltp, h1] at h
  | some p1 =>
    obtain ⟨t1, r1⟩ := p1
    cases h2 : findTok latLbl numch r1 with
    | none => simp [matchOltp, h1, h2] at h
    | some p2 =>
      obtain ⟨t2, r2⟩ := p2
      cases h3 : findTok txLbl Char.isDigit r2 with
      | none => simp [matchOltp, h1, h2, h3] at h
      | some p3 =>
        obtain ⟨t3, r3⟩ := p3
        obtain ⟨a1, w1, hs1, hw1, hne1, hok1⟩ := findTok_sound _ _ _ _ _ h1
        obtain ⟨a2, w2, hs2, hw2, hne2, hok2⟩ := findTok_sound _ _ _ _ _ h2
        obtain ⟨a3, w3, hs3, hw3, hne3, hok3⟩ := findTok_sound _ _ _ _ _ h3
        exact ⟨a1, w1, t1, a2, w2, t2, a3, w3, t3, r3,
          by rw [hs1, hs2, hs3]; simp [List.append_assoc],
          hw1, hw2, hw3, hne1, hok1, hne2, hok2, hne3, hok3⟩

lemma findTok_complete (pat : List Char) (hp : Char) (pt : List Char)
    (hpat : pat = hp :: pt) (ok : Char → Bool)
    (hws : hp.isWhitespace = false) (hok : ok hp = false)
    (hsf : selfFree pat = true)
    (hokws : ∀ c, ok c = true → c.isWhitespace = false) :
    ∀ (a w t rest : List Char), (∀ c ∈ w, c.isWhitespace = true) → t ≠ [] →
      (∀ c ∈ t, ok c = true) →
      ∃ t' r' x, findTok pat ok (a ++ pat ++ w ++ t ++ rest) = some (t', r') ∧
        r' = x ++ rest.dropWhile ok := by
  intro a
  induction a with
  | nil =>
    intro w t rest hw ht hok'
    obtain ⟨c0, t0, rfl⟩ : ∃ c0 t0, t = c0 :: t0 := by
      cases t with
      | nil => exact absurd rfl ht
      | cons c0 t0 => exact ⟨c0, t0, rfl⟩
    have hsheq : ([] ++ pat ++ w ++ (c0 :: t0) ++ rest) =
        pat ++ (w ++ (c0 :: (t0 ++ rest))) := by
      simp [List.append_assoc]
    rw [hsheq, hpat, findTok_at_match hp pt ok _]
    have hzdrop : (w ++ (c0 :: (t0 ++ rest))).dropWhile (fun d => d.isWhitespace)
        = c0 :: (t0 ++ rest) := by
      rw [dropWhile_all_append _ _ _ (fun c hc => hw c hc), List.dropWhile_cons,
        if_neg (by
          have := hokws c0 (hok' c0 (List.mem_cons_self _ _))
          simp [this])]
    have htake : (c0 :: (t0 ++ rest)).takeWhile ok = (c0 :: t0) ++ rest.takeWhile ok := by
      have := takeWhile_all_append ok (c0 :: t0) rest hok'
      rwa [List.cons_append] at this
    have hdropok : (c0 :: (t0 ++ rest)).dropWhile ok = rest.dropWhile ok := by
      have := dropWhile_all_append ok (c0 :: t0) rest hok'
      rwa [List.cons_append] at this
    rw [hzdrop, htake, hdropok, if_neg (by simp)]
    exact ⟨_, _, [], rfl, (List.nil_append _).symm⟩
  | cons a0 as ih =>
    intro w t rest hw ht hok'
    have hsheq : (a0 :: as) ++ pat ++ w ++ t ++ rest =
        a0 :: (as ++ pat ++ w ++ t ++ rest) := by
      simp [List.append_assoc]
    rw [hsheq]
    by_cases hl : leadsWith pat (a0 :: (as ++ pat ++ w ++ t ++ rest)) = true
    · by_cases hemp :
        (((a0 :: (as ++ pat ++ w ++ t ++ rest)).drop pat.length).dropWhile
            (fun d => d.isWhitespace)).takeWhile ok = []
      · rw [findTok, if_pos hl, if_pos hemp]
        exact ih w t rest hw ht hok'
      · rw [findTok, if_pos hl, if_neg hemp]
        obtain ⟨q, hq⟩ := (leadsWith_iff _ _).mp hl
        have hlen : pat.length ≤ (a0 :: as).length := by
          by_contra hcon
          push_neg at hcon
          refine selfFree_spec pat hsf (a0 :: as) q (w ++ (t ++ rest)) (by simp) hcon ?_
          rw [← hq]
          simp [List.append_assoc]
        have hL : (a0 :: as) = pat ++ (a0 :: as).drop pat.length := by
          have h2 : a0 :: (as ++ pat ++ w ++ t ++ rest) =
              (a0 :: as) ++ (pat ++ (w ++ (t ++ rest))) := by
            simp [List.append_assoc]
          have h4 : (a0 :: as).take pat.length = pat := by
            rw [← List.take_append_of_le_length hlen, ← h2, hq, List.take_left]
          conv_lhs => rw [← List.take_append_drop pat.length (a0 :: as)]
          rw [h4]
        have hs2 : a0 :: (as ++ pat ++ w ++ t ++ rest) =
            pat ++ ((a0 :: as).drop pat.length ++ (pat ++ (w ++ (t ++ rest)))) := by
          calc a0 :: (as ++ pat ++ w ++ t ++ rest)
              = (a0 :: as) ++ (pat ++ (w ++ (t ++ rest))) := by
                simp [List.append_assoc]
            _ = (pat ++ (a0 :: as).drop pat.length) ++ (pat ++ (w ++ (t ++ rest))) := by
                rw [← hL]
            _ = pat ++ ((a0 :: as).drop pat.length ++ (pat ++ (w ++ (t ++ rest)))) := by
                simp [List.append_assoc]
        have hdropq : (a0 :: (as ++ pat ++ w ++ t ++ rest)).drop pat.length =
            (a0 :: as).drop pat.length ++ (hp :: (pt ++ (w ++ (t ++ rest)))) := by
          rw [hs2, List.drop_left, hpat, List.cons_append]
        rw [hdropq]
        obtain ⟨a3, ha3⟩ := dropWhile_through (fun d => d.isWhitespace)
          ((a0 :: as).drop pat.length) hp (pt ++ (w ++ (t ++ rest))) (by simp [hws])
        rw [ha3]
        obtain ⟨a4, ha4⟩ := dropWhile_through ok a3 hp
          (pt ++ (w ++ (t ++ rest))) hok
        rw [ha4]
        refine ⟨_, _, a4 ++ pat ++ w ++ t ++ rest.takeWhile ok, rfl, ?_⟩
        rw [hpat]
        simp [List.append_assoc]
    · rw [findTok, if_neg hl]
      exact ih w t rest hw ht hok'

lemma matchOltp_complete (s : List Char) (h : OrderedMatch s) :
    (matchOltp s).isSome = true := by
  obtain ⟨a, w1, t1, b, w2, t2, c, w3, t3, d, hs, hw1, hw2, hw3,
    ht1, hok1, ht2, hok2, ht3, hok3⟩ := h
  have hlat : latLbl = 'С' :: ("редняя задержка:".toList) := by decide
  have htx : txLbl = 'О' :: ("бработано транзакций:".toList) := by decide
  obtain ⟨t1', r1', x1, hft1, hr1⟩ :=
    findTok_complete tpsLbl 'T' ("PS (Transactions Per Second):".toList) (by decide)
      numch (by decide) (by decide) (by decide) numch_not_ws a w1 t1
      (b ++ (latLbl ++ (w2 ++ (t2 ++ (c ++ (txLbl ++ (w3 ++ (t3 ++ d))))))))
      hw1 ht1 hok1
  have hseq : s = a ++ tpsLbl ++ w1 ++ t1 ++
      (b ++ (latLbl ++ (w2 ++ (t2 ++ (c ++ (txLbl ++ (w3 ++ (t3 ++ d)))))))) := by
    rw [hs]
    simp [List.append_assoc]
  rw [← hseq] at hft1
  obtain ⟨b2, hb2⟩ := dropWhile_through numch b 'С'
    ("редняя задержка:".toList ++ (w2 ++ (t2 ++ (c ++ (txLbl ++ (w3 ++ (t3 ++ d)))))))
    (by decide)
  have hr1eq : r1' = (x1 ++ b2) ++ latLbl ++ w2 ++ t2 ++
      (c ++ (txLbl ++ (w3 ++ (t3 ++ d)))) := by
    rw [hr1, hlat, List.cons_append, hb2]
    simp [List.append_assoc]
  obtain ⟨t2', r2', x2, hft2, hr2⟩ :=
    findTok_complete latLbl 'С' ("редняя задержка:".toList) hlat
      numch (by decide) (by decide) (by decide) numch_not_ws
      (x1 ++ b2) w2 t2 (c ++ (txLbl ++ (w3 ++ (t3 ++ d)))) hw2 ht2 hok2
  rw [← hr1eq] at hft2
  obtain ⟨c2, hc2⟩ := dropWhile_through numch c 'О'
    ("бработано транзакций:".toList ++ (w3 ++ (t3 ++ d))) (by decide)
  have hr2eq : r2' = (x2 ++ c2) ++ txLbl ++ w3 ++ t3 ++ d := by
    rw [hr2, htx, List.cons_append, hc2]
    simp [List.append_assoc]
  obtain ⟨t3', r3', x3, hft3, hr3⟩ :=
    findTok_complete txLbl 'О' ("бработано транзакций:".toList) htx
      Char.isDigit (by decide) (by decide) (by decide) digit_not_ws
      (x2 ++ c2) w3 t3 d hw3 ht3 hok3
  rw [← hr2eq] at hft3
  simp [matchOltp, hft1, hft2, hft3]

/-- Claim C9 (amended): the pgbench pattern matches a transcript exactly
when the three labeled fields occur in the fixed order (rate, then
average latency, then transaction count) with arbitrary intervening
text; a non-match yields no OltpMeasurement; and the snapshot's oltp
component is absent exactly when no parsed transcript produced an
OltpMeasurement. -/
theorem oltp_order_and_absence (sq : ℚ → ℚ) (ts : List Parsed)
    (content : List Char) :
    ((matchOltp content).isSome = true ↔ OrderedMatch content) ∧
      (oltpOf content = some none ↔ matchOltp content = none) ∧
      (∀ o : Oltp, oltpOf content = some (some o) → OrderedMatch content) ∧
      (aggregatePg sq ts = none ↔ ∀ t ∈ ts, t.pgbench = none) := by
  refine ⟨⟨matchOltp_sound content, matchOltp_complete content⟩, ?_, ?_, ?_⟩
  · cases hm : matchOltp content with
    | none => simp [oltpOf, hm]
    | some p =>
      obtain ⟨u1, u2, u3⟩ := p
      constructor
      · intro hcon
        cases hp1 : parseFloat u1 with
        | none => simp [oltpOf, hm, hp1] at hcon
        | some q1 =>
          cases hp2 : parseFloat u2 with
          | none => simp [oltpOf, hm, hp1, hp2] at hcon
          | some q2 => simp [oltpOf, hm, hp1, hp2] at hcon
      · intro hcon
        exact absurd hcon (by simp)
  · intro o ho
    apply matchOltp_sound
    cases hm : matchOltp content with
    | none => simp [oltpOf, hm] at ho
    | some p => simp
  · rw [aggregatePg]
    constructor
    · intro hnone
      by_cases hnil : pgSamples ts = []
      · intro t ht
        have hq : ts.filterMap Parsed.pgbench = [] := hnil
        exact List.filterMap_eq_nil_iff.mp hq t ht
      · rw [if_neg hnil] at hnone
        cases hnone
    · intro hall
      have hnil : pgSamples ts = [] := List.filterMap_eq_nil_iff.mpr hall
      rw [if_pos hnil]

/-- Counterexample to C9 as stated: `cBad` contains all three labeled
fields, each followed by its number, but with the transaction count
first; the pattern does not match and no OltpMeasurement is produced. -/
theorem oltp_presence_insufficient :
    containsSub tpsLbl cBad = true ∧ containsSub latLbl cBad = true ∧
      containsSub txLbl cBad = true ∧ oltpOf cBad = some none := by
  refine ⟨by decide, by decide, by decide, by decide⟩
